import Mathlib

/-!
Verification of the byte-enum library (src/byteEnum.ts).

The TypeScript source builds enumeration objects in three ways:
`createByteEnum` (names mapped to 0..n-1), `createCharEnum` (names mapped to
single-character codes drawn positionally from a code-set string, defaulting
to the 256 single-byte code points) and `createAlphaNumEnum` (delegating to
`createCharEnum` with a fixed 62-character set).  Each instance carries a
forward name-to-code object, a reverse code-to-name map, and cached key and
value lists, plus query operations.

The embedding below models JavaScript objects as insertion-ordered
association lists in which assigning to an existing key overwrites its value
in place (last write wins, position kept), and models the enumeration order
of `Object.entries` faithfully: keys that are canonical array indices are
listed first in ascending numeric order, followed by the remaining keys in
insertion order.  JavaScript `Map` is modelled the same way; only `get` and
`has` are used on it.  Strings are Lean strings; `toUpperCase`,
`toLowerCase`, `split('_')`, `charAt(0)` and `slice(1)` are modelled
character-for-character (over the Basic Latin range, where Lean's
`Char.toUpper`/`Char.toLower` agree with the JavaScript functions).
Thrown `Error(msg)` is modelled as `Except.error msg`.
-/

/-- JavaScript object property assignment on an insertion-ordered
association list: overwrite in place if the key is present, else append. -/
def insertAssoc {K V : Type} [DecidableEq K] (m : List (K × V)) (k : K) (v : V) :
    List (K × V) :=
  if m.any (fun e => decide (e.1 = k)) then
    m.map (fun e => if e.1 = k then (k, v) else e)
  else
    m ++ [(k, v)]

/-- Key membership in an association list (JavaScript `hasOwnProperty` /
`Map.has`). -/
def assocHas {K V : Type} [DecidableEq K] (m : List (K × V)) (k : K) : Bool :=
  m.any (fun e => decide (e.1 = k))

/-- Lookup in an association list (JavaScript property read / `Map.get`),
returning `none` for `undefined`. -/
def assocFind {K V : Type} [DecidableEq K] (m : List (K × V)) (k : K) : Option V :=
  (m.find? (fun e => decide (e.1 = k))).map (fun e => e.2)

/-- JavaScript `s.toUpperCase()` (agrees with `Char.toUpper` on Basic Latin). -/
def toUpperCase (s : String) : String :=
  String.mk (s.data.map Char.toUpper)

/-- JavaScript `s.toLowerCase()` (agrees with `Char.toLower` on Basic Latin). -/
def toLowerCase (s : String) : String :=
  String.mk (s.data.map Char.toLower)

/-- JavaScript `s.split(sep)` on a list of characters: splitting the empty
string yields one empty field, and separators delimit possibly empty fields. -/
def splitCharAux (sep : Char) : List Char → List (List Char)
  | [] => [[]]
  | c :: cs =>
    let r := splitCharAux sep cs
    if c = sep then [] :: r
    else
      match r with
      | [] => [[c]]
      | w :: ws => (c :: w) :: ws

/-- JavaScript `s.split('_')`. -/
def splitUnderscore (s : String) : List String :=
  (splitCharAux '_' s.data).map String.mk

/-- JavaScript `word.charAt(0).toUpperCase() + word.slice(1)` as used by
`getDisplayName`: capitalize the first character, keep the rest. -/
def capitalizeWord (w : String) : String :=
  match w.data with
  | [] => ""
  | c :: cs => String.mk (Char.toUpper c :: cs)

/-- The display-name computation of the source: lowercase the whole key,
split on underscore, capitalize each word, join with single spaces. -/
def displayFormat (key : String) : String :=
  String.intercalate (" ") ((splitUnderscore (toLowerCase key)).map capitalizeWord)

/-- Numeric value of a digit string, as used to order array-index keys. -/
def keyNum (s : String) : Nat :=
  s.data.foldl (fun n c => n * 10 + (c.toNat - 48)) 0

/-- Whether a string is a canonical ECMAScript array-index property key:
a digit string with no leading zero (except "0" itself) whose numeric value
is below 2^32 - 1.  Such keys are enumerated first, in ascending numeric
order, by `Object.entries`. -/
def isArrayIndex (s : String) : Bool :=
  match s.data with
  | [] => false
  | c :: cs =>
    c.isDigit && cs.all (fun d => d.isDigit) &&
      (decide (c ≠ '0') || decide (cs = [])) && decide (keyNum s < 4294967295)

/-- The enumeration order of `Object.entries` on an insertion-ordered
object: array-index keys in ascending numeric order first, then the
remaining keys in insertion order. -/
def objEntries {V : Type} (m : List (String × V)) : List (String × V) :=
  List.insertionSort (fun a b => keyNum a.1 ≤ keyNum b.1)
      (m.filter (fun e => isArrayIndex e.1)) ++
    m.filter (fun e => !isArrayIndex e.1)

/-- The instance produced by `createByteEnum`: the forward name-to-code
object, the reverse `Map`, and the cached key and value arrays. -/
structure ByteEnumInst where
  enumObject : List (String × Nat)
  valueToKeyMap : List (Nat × String)
  keysList : List String
  valuesList : List Nat
deriving DecidableEq

/-- The `keys.reduce(...)` loop of `createByteEnum`: walk the names with
their indices, failing once an index exceeds 255, otherwise storing the
uppercased name with its index in the object. -/
def buildByteObj : List String → Nat → List (String × Nat) →
    Except String (List (String × Nat))
  | [], _, acc => .ok acc
  | k :: ks, index, acc =>
    if index > 255 then .error ("Byte enum cannot have more than 256 values")
    else buildByteObj ks (index + 1) (insertAssoc acc (toUpperCase k) index)

/-- `createByteEnum`: build the forward object, then populate the reverse
map and the cached key and value arrays from `Object.entries`. -/
def createByteEnum (names : List String) : Except String ByteEnumInst :=
  match buildByteObj names 0 [] with
  | .error e => .error e
  | .ok obj =>
    let entries := objEntries obj
    .ok { enumObject := obj
          valueToKeyMap := entries.foldl (fun m e => insertAssoc m e.2 e.1) []
          keysList := entries.map Prod.fst
          valuesList := entries.map Prod.snd }

/-- `values()` returns the cached value array. -/
def ByteEnumInst.values (e : ByteEnumInst) : List Nat := e.valuesList

/-- `keys()` returns the cached key array. -/
def ByteEnumInst.keys (e : ByteEnumInst) : List String := e.keysList

/-- `isValue(value)`: membership in the reverse map. -/
def ByteEnumInst.isValue (e : ByteEnumInst) (v : Nat) : Bool :=
  assocHas e.valueToKeyMap v

/-- `isKey(key)`: uppercase, then check membership in the forward object. -/
def ByteEnumInst.isKey (e : ByteEnumInst) (k : String) : Bool :=
  assocHas e.enumObject (toUpperCase k)

/-- `getKeyByValue(value)`: reverse-map lookup. -/
def ByteEnumInst.getKeyByValue (e : ByteEnumInst) (v : Nat) : Option String :=
  assocFind e.valueToKeyMap v

/-- `getDisplayName(value)`: empty string when the code is unknown,
otherwise the formatted key. -/
def ByteEnumInst.getDisplayName (e : ByteEnumInst) (v : Nat) : String :=
  match e.getKeyByValue v with
  | none => ""
  | some k => displayFormat k

/-- `getFormattedName(value, formatter)`: empty string when the code is
unknown, otherwise the formatter applied to the key. -/
def ByteEnumInst.getFormattedName (e : ByteEnumInst) (v : Nat)
    (formatter : String → String) : String :=
  match e.getKeyByValue v with
  | none => ""
  | some k => formatter k

/-- The instance produced by `createCharEnum` / `createAlphaNumEnum`;
codes are the one-character strings `charSet[index]`. -/
structure CharEnumInst where
  enumObject : List (String × String)
  valueToKeyMap : List (String × String)
  keysList : List String
  valuesList : List String
deriving DecidableEq

/-- The default code-set of `createCharEnum`: the 256 single-byte code
points 0..255 in numeric order. -/
def defaultCharSet : String :=
  String.mk ((List.range 256).map Char.ofNat)

/-- The `keys.reduce(...)` loop of `createCharEnum`: walk the names with
their indices, failing once an index reaches the code-set length, otherwise
storing the uppercased name with the one-character string `charSet[index]`. -/
def buildCharObj (cs : List Char) : List String → Nat → List (String × String) →
    Except String (List (String × String))
  | [], _, acc => .ok acc
  | k :: ks, index, acc =>
    if h : index ≥ cs.length then
      .error ("Enum has too many values (max: " ++ toString cs.length ++ ")")
    else
      buildCharObj cs ks (index + 1)
        (insertAssoc acc (toUpperCase k) (String.mk [cs.get ⟨index, Nat.lt_of_not_le h⟩]))

/-- `createCharEnum`: an absent or empty (falsy) custom code-set is replaced
by the default 256-character set; then build the forward object and populate
the reverse map and cached arrays from `Object.entries`. -/
def createCharEnum (names : List String) (customCharSet : Option String) :
    Except String CharEnumInst :=
  let charSet : String :=
    match customCharSet with
    | none => defaultCharSet
    | some s => if s = "" then defaultCharSet else s
  match buildCharObj charSet.data names 0 [] with
  | .error e => .error e
  | .ok obj =>
    let entries := objEntries obj
    .ok { enumObject := obj
          valueToKeyMap := entries.foldl (fun m e => insertAssoc m e.2 e.1) []
          keysList := entries.map Prod.fst
          valuesList := entries.map Prod.snd }

/-- `values()` returns the cached value array. -/
def CharEnumInst.values (e : CharEnumInst) : List String := e.valuesList

/-- `keys()` returns the cached key array. -/
def CharEnumInst.keys (e : CharEnumInst) : List String := e.keysList

/-- `isValue(value)`: membership in the reverse map. -/
def CharEnumInst.isValue (e : CharEnumInst) (v : String) : Bool :=
  assocHas e.valueToKeyMap v

/-- `isKey(key)`: uppercase, then check membership in the forward object. -/
def CharEnumInst.isKey (e : CharEnumInst) (k : String) : Bool :=
  assocHas e.enumObject (toUpperCase k)

/-- `getKeyByValue(value)`: reverse-map lookup. -/
def CharEnumInst.getKeyByValue (e : CharEnumInst) (v : String) : Option String :=
  assocFind e.valueToKeyMap v

/-- `getDisplayName(value)`: empty string when the code is unknown,
otherwise the formatted key. -/
def CharEnumInst.getDisplayName (e : CharEnumInst) (v : String) : String :=
  match e.getKeyByValue v with
  | none => ""
  | some k => displayFormat k

/-- `getFormattedName(value, formatter)`: empty string when the code is
unknown, otherwise the formatter applied to the key. -/
def CharEnumInst.getFormattedName (e : CharEnumInst) (v : String)
    (formatter : String → String) : String :=
  match e.getKeyByValue v with
  | none => ""
  | some k => formatter k

/-- The fixed 62-character code-set of `createAlphaNumEnum`, as written in
the source. -/
def alphaNumCharSet : String :=
  "0123456789abcdefghijklmnopqrstuvwxyzABCDEFGHIJKLMNOPQRSTUVWXYZ"

/-- `createAlphaNumEnum` delegates to `createCharEnum` with the fixed
62-character code-set. -/
def createAlphaNumEnum (names : List String) : Except String CharEnumInst :=
  createCharEnum names (some alphaNumCharSet)

/-- The code-set actually used by `createCharEnum`: the caller's set when
present and non-empty (truthy), else the default 256-character set — the
same resolution the source performs with `if (!charSet)`. -/
def resolvedCharSet (customCharSet : Option String) : String :=
  match customCharSet with
  | none => defaultCharSet
  | some s => if s = "" then defaultCharSet else s

/-- Modelled from the spec: the display-name formatting rule stated in the
spec's own order of operations — split the normalized name on underscore,
lowercase each segment, uppercase each segment's first character, and join
the segments with single spaces. -/
def displaySpec (key : String) : String :=
  String.intercalate (" ")
    ((splitUnderscore key).map (fun w => capitalizeWord (toLowerCase w)))

/-- Modelled from the spec: the alphanumeric code-set described as the
digits 0-9, then lowercase a-z, then uppercase A-Z, concatenated in that
order. -/
def specAlphaNumSet : String :=
  String.mk (((List.range 10).map (fun i => Char.ofNat (48 + i)) ++
    (List.range 26).map (fun i => Char.ofNat (97 + i))) ++
    (List.range 26).map (fun i => Char.ofNat (65 + i)))

/-- The concrete byte instance built from the single name "ONE", used to
instantiate witnesses. -/
def byteInstONE : ByteEnumInst :=
  { enumObject := [("ONE", 0)], valueToKeyMap := [(0, "ONE")],
    keysList := ["ONE"], valuesList := [0] }

/-- The concrete char instance built from the single name "ONE" over the
code-set "Z", used to instantiate witnesses. -/
def charInstONE : CharEnumInst :=
  { enumObject := [("ONE", "Z")], valueToKeyMap := [("Z", "ONE")],
    keysList := ["ONE"], valuesList := ["Z"] }

theorem assocHas_iff {K V : Type} [DecidableEq K] (m : List (K × V)) (x : K) :
    assocHas m x = true ↔ ∃ e ∈ m, e.1 = x := by
  simp [assocHas, List.any_eq_true]

theorem insertAssoc_of_forall_ne {K V : Type} [DecidableEq K] (m : List (K × V)) (k : K)
    (v : V) (h : ∀ e ∈ m, e.1 ≠ k) : insertAssoc m k v = m ++ [(k, v)] := by
  have h' : m.any (fun e => decide (e.1 = k)) = false := by
    simp only [List.any_eq_false, decide_eq_true_eq]
    exact h
  simp [insertAssoc, h']

theorem mem_insertAssoc {K V : Type} [DecidableEq K] {m : List (K × V)} {k : K} {v : V}
    {p : K × V} (h : p ∈ insertAssoc m k v) : p ∈ m ∨ p = (k, v) := by
  unfold insertAssoc at h
  by_cases hm : m.any (fun e => decide (e.1 = k)) = true
  · rw [if_pos hm] at h
    obtain ⟨e, he, hfe⟩ := List.mem_map.1 h
    by_cases hek : e.1 = k
    · rw [if_pos hek] at hfe
      exact Or.inr hfe.symm
    · rw [if_neg hek] at hfe
      exact Or.inl (hfe ▸ he)
  · rw [if_neg hm] at h
    rcases List.mem_append.1 h with h1 | h1
    · exact Or.inl h1
    · exact Or.inr (List.mem_singleton.1 h1)

theorem assocHas_insertAssoc {K V : Type} [DecidableEq K] (m : List (K × V)) (k x : K)
    (v : V) : assocHas (insertAssoc m k v) x = true ↔ (assocHas m x = true ∨ x = k) := by
  unfold insertAssoc
  by_cases hm : m.any (fun e => decide (e.1 = k)) = true
  · rw [if_pos hm]
    rw [assocHas_iff, assocHas_iff]
    constructor
    · rintro ⟨e, he, hfe⟩
      obtain ⟨e0, he0, hfe0⟩ := List.mem_map.1 he
      by_cases hek : e0.1 = k
      · rw [if_pos hek] at hfe0
        exact Or.inr (by rw [← hfe, ← hfe0])
      · rw [if_neg hek] at hfe0
        exact Or.inl ⟨e0, he0, by rw [hfe0]; exact hfe⟩
    · obtain ⟨e0, he0, he0k⟩ := (assocHas_iff m k).1 (by simpa [assocHas] using hm)
      rintro (⟨e, he, hex⟩ | hxk)
      · by_cases hek : e.1 = k
        · refine ⟨(k, v), List.mem_map.2 ⟨e0, he0, by rw [if_pos he0k]⟩, ?_⟩
          rw [← hex, hek]
        · exact ⟨e, List.mem_map.2 ⟨e, he, by rw [if_neg hek]⟩, hex⟩
      · exact ⟨(k, v), List.mem_map.2 ⟨e0, he0, by rw [if_pos he0k]⟩, hxk.symm⟩
  · rw [if_neg hm]
    rw [assocHas_iff, assocHas_iff]
    constructor
    · rintro ⟨e, he, hex⟩
      rcases List.mem_append.1 he with h1 | h1
      · exact Or.inl ⟨e, h1, hex⟩
      · rw [List.mem_singleton.1 h1] at hex
        exact Or.inr hex.symm
    · rintro (⟨e, he, hex⟩ | hxk)
      · exact ⟨e, List.mem_append.2 (Or.inl he), hex⟩
      · exact ⟨(k, v), List.mem_append.2 (Or.inr (List.mem_singleton.2 rfl)), hxk.symm⟩

theorem assocFind_eq_some {K V : Type} [DecidableEq K] {m : List (K × V)} {k : K} {v : V}
    (h : assocFind m k = some v) : (k, v) ∈ m := by
  unfold assocFind at h
  cases hf : m.find? (fun e => decide (e.1 = k)) with
  | none => rw [hf] at h; exact absurd h (by simp)
  | some e =>
    rw [hf] at h
    have hmem := List.mem_of_find?_eq_some hf
    have hkey : e.1 = k := by simpa using List.find?_some hf
    have hv : e.2 = v := by simpa using h
    rw [← hkey, ← hv]
    exact hmem

theorem assocFind_eq_none {K V : Type} [DecidableEq K] {m : List (K × V)} {k : K}
    (h : ∀ e ∈ m, e.1 ≠ k) : assocFind m k = none := by
  unfold assocFind
  rw [List.find?_eq_none.2 (by simpa using h)]
  rfl

theorem assocFind_isSome {K V : Type} [DecidableEq K] {m : List (K × V)} {k : K}
    (h : assocHas m k = true) : ∃ v, assocFind m k = some v := by
  obtain ⟨e, he, hek⟩ := (assocHas_iff m k).1 h
  unfold assocFind
  cases hf : m.find? (fun e => decide (e.1 = k)) with
  | none =>
    exact absurd hek (by simpa using List.find?_eq_none.1 hf e he)
  | some e' => exact ⟨e'.2, rfl⟩

theorem toNat_Char_ofNat_of_lt {n : Nat} (h : n < 55296) : (Char.ofNat n).toNat = n := by
  have hv : n.isValidChar := Or.inl h
  rw [Char.ofNat, dif_pos hv]
  rfl

theorem toNat_Char_toUpper (c : Char) :
    c.toUpper.toNat = if 97 ≤ c.toNat ∧ c.toNat ≤ 122 then c.toNat - 32 else c.toNat := by
  unfold Char.toUpper
  by_cases h : 97 ≤ c.toNat ∧ c.toNat ≤ 122
  · rw [if_pos ⟨h.1, h.2⟩, if_pos h]
    exact toNat_Char_ofNat_of_lt (by omega)
  · rw [if_neg (by omega), if_neg h]

theorem toUpper_eq_self_of_not_lower (c : Char)
    (h : ¬(97 ≤ c.toNat ∧ c.toNat ≤ 122)) : c.toUpper = c := by
  unfold Char.toUpper
  rw [if_neg (by omega)]

theorem toUpper_toUpper (c : Char) : c.toUpper.toUpper = c.toUpper := by
  apply toUpper_eq_self_of_not_lower
  rw [toNat_Char_toUpper c]
  by_cases h : 97 ≤ c.toNat ∧ c.toNat ≤ 122
  · rw [if_pos h]; omega
  · rw [if_neg h]; omega

theorem toUpperCase_toUpperCase (s : String) :
    toUpperCase (toUpperCase s) = toUpperCase s := by
  unfold toUpperCase
  simp only [List.map_map]
  congr 1
  exact List.map_congr_left (fun c _ => toUpper_toUpper c)

theorem toLower_eq_underscore_iff (c : Char) : c.toLower = '_' ↔ c = '_' := by
  constructor
  · intro h
    unfold Char.toLower at h
    by_cases hb : 65 ≤ c.toNat ∧ c.toNat ≤ 90
    · rw [if_pos ⟨hb.1, hb.2⟩] at h
      have := congrArg Char.toNat h
      rw [toNat_Char_ofNat_of_lt (by omega)] at this
      have hu : ('_').toNat = 95 := rfl
      omega
    · rwa [if_neg (by omega)] at h
  · intro h
    rw [h]
    rfl

theorem splitCharAux_map_toLower (l : List Char) :
    splitCharAux '_' (l.map Char.toLower) =
      (splitCharAux '_' l).map (List.map Char.toLower) := by
  induction l with
  | nil => rfl
  | cons c cs ih =>
    simp only [List.map_cons, splitCharAux]
    by_cases hc : c = '_'
    · rw [if_pos (by rw [hc]; rfl), if_pos hc, ih]
      rfl
    · have hlc : ¬(c.toLower = '_') := fun h => hc ((toLower_eq_underscore_iff c).1 h)
      rw [if_neg hlc, if_neg hc, ih]
      cases hsplit : splitCharAux '_' cs with
      | nil => rfl
      | cons w ws => rfl

theorem displayFormat_eq_displaySpec (key : String) :
    displayFormat key = displaySpec key := by
  unfold displayFormat displaySpec splitUnderscore toLowerCase
  show String.intercalate (" ")
      (((splitCharAux '_' (key.data.map Char.toLower)).map String.mk).map capitalizeWord) = _
  rw [splitCharAux_map_toLower]
  simp only [List.map_map]
  rfl

theorem objEntries_perm {V : Type} (m : List (String × V)) : (objEntries m).Perm m := by
  unfold objEntries
  exact ((List.perm_insertionSort _ _).append_right _).trans
    (List.filter_append_perm _ m)

theorem objEntries_eq_self {V : Type} (m : List (String × V))
    (h : ∀ e ∈ m, isArrayIndex e.1 = false) : objEntries m = m := by
  unfold objEntries
  have h1 : m.filter (fun e => isArrayIndex e.1) = [] := by
    simp only [List.filter_eq_nil_iff]
    intro e he
    simp [h e he]
  have h2 : m.filter (fun e => !isArrayIndex e.1) = m := by
    rw [List.filter_eq_self]
    intro e he
    simp [h e he]
  rw [h1, h2]
  rfl

theorem objEntries_singleton {V : Type} (e : String × V) : objEntries [e] = [e] := by
  unfold objEntries
  by_cases h : isArrayIndex e.1 = true
  · simp [h, List.insertionSort, List.orderedInsert]
  · simp [Bool.eq_false_iff.2 h, List.insertionSort]

theorem buildByteObj_ok (ks : List String) :
    ∀ (index : Nat) (acc : List (String × Nat)), index + ks.length ≤ 256 →
      ∃ obj, buildByteObj ks index acc = .ok obj := by
  induction ks with
  | nil => exact fun index acc _ => ⟨acc, rfl⟩
  | cons k ks ih =>
    intro index acc h
    simp only [List.length_cons] at h
    rw [buildByteObj, if_neg (by omega)]
    exact ih (index + 1) _ (by omega)

theorem buildByteObj_err (ks : List String) :
    ∀ (index : Nat) (acc : List (String × Nat)), index ≤ 256 → 256 < index + ks.length →
      buildByteObj ks index acc = .error ("Byte enum cannot have more than 256 values") := by
  induction ks with
  | nil =>
    intro index acc h1 h2
    simp only [List.length_nil] at h2
    omega
  | cons k ks ih =>
    intro index acc h1 h2
    simp only [List.length_cons] at h2
    rw [buildByteObj]
    by_cases hb : index > 255
    · rw [if_pos hb]
    · rw [if_neg hb]
      exact ih (index + 1) _ (by omega) (by omega)

theorem buildByteObj_nodup (ks : List String) :
    ∀ (index : Nat) (acc : List (String × Nat)), index + ks.length ≤ 256 →
      (ks.map toUpperCase).Nodup →
      (∀ n ∈ ks, ∀ e ∈ acc, e.1 ≠ toUpperCase n) →
      buildByteObj ks index acc =
        .ok (acc ++ (ks.map toUpperCase).zip (List.range' index ks.length)) := by
  induction ks with
  | nil => simp [buildByteObj]
  | cons k ks ih =>
    intro index acc hlen hnd hfresh
    simp only [List.length_cons] at hlen
    rw [buildByteObj, if_neg (by omega)]
    rw [insertAssoc_of_forall_ne _ _ _ (fun e he => hfresh k (List.mem_cons_self k ks) e he)]
    simp only [List.map_cons, List.nodup_cons] at hnd
    have hfresh' : ∀ n ∈ ks, ∀ e ∈ acc ++ [(toUpperCase k, index)], e.1 ≠ toUpperCase n := by
      intro n hn e he
      rcases List.mem_append.1 he with h1 | h1
      · exact hfresh n (List.mem_cons_of_mem k hn) e h1
      · rw [List.mem_singleton.1 h1]
        intro hcontra
        have : toUpperCase k = toUpperCase n := hcontra
        exact hnd.1 (this ▸ List.mem_map_of_mem toUpperCase hn)
    rw [ih (index + 1) _ (by omega) hnd.2 hfresh']
    simp [List.range', List.zip_cons_cons, List.append_assoc]

theorem buildCharObj_ok (cs : List Char) (ks : List String) :
    ∀ (index : Nat) (acc : List (String × String)), index + ks.length ≤ cs.length →
      ∃ obj, buildCharObj cs ks index acc = .ok obj := by
  induction ks with
  | nil => exact fun index acc _ => ⟨acc, rfl⟩
  | cons k ks ih =>
    intro index acc h
    simp only [List.length_cons] at h
    rw [buildCharObj, dif_neg (by omega)]
    exact ih (index + 1) _ (by omega)

theorem buildCharObj_err (cs : List Char) (ks : List String) :
    ∀ (index : Nat) (acc : List (String × String)), index ≤ cs.length →
      cs.length < index + ks.length →
      buildCharObj cs ks index acc =
        .error ("Enum has too many values (max: " ++ toString cs.length ++ ")") := by
  induction ks with
  | nil =>
    intro index acc h1 h2
    simp only [List.length_nil] at h2
    omega
  | cons k ks ih =>
    intro index acc h1 h2
    simp only [List.length_cons] at h2
    rw [buildCharObj]
    by_cases hb : index ≥ cs.length
    · rw [dif_pos hb]
    · rw [dif_neg hb]
      exact ih (index + 1) _ (by omega) (by omega)

theorem buildCharObj_nodup (cs : List Char) (ks : List String) :
    ∀ (index : Nat) (acc : List (String × String)), index + ks.length ≤ cs.length →
      (ks.map toUpperCase).Nodup →
      (∀ n ∈ ks, ∀ e ∈ acc, e.1 ≠ toUpperCase n) →
      buildCharObj cs ks index acc =
        .ok (acc ++ (ks.map toUpperCase).zip
          (((cs.drop index).take ks.length).map (fun c => String.mk [c]))) := by
  induction ks with
  | nil =>
    intro index acc _ _ _
    simp [buildCharObj]
  | cons k ks ih =>
    intro index acc hlen hnd hfresh
    simp only [List.length_cons] at hlen
    rw [buildCharObj, dif_neg (by omega)]
    rw [insertAssoc_of_forall_ne _ _ _ (fun e he => hfresh k (List.mem_cons_self k ks) e he)]
    simp only [List.map_cons, List.nodup_cons] at hnd
    have hfresh' : ∀ n ∈ ks,
        ∀ e ∈ acc ++ [(toUpperCase k, String.mk [cs.get ⟨index, by omega⟩])],
        e.1 ≠ toUpperCase n := by
      intro n hn e he
      rcases List.mem_append.1 he with h1 | h1
      · exact hfresh n (List.mem_cons_of_mem k hn) e h1
      · rw [List.mem_singleton.1 h1]
        intro hcontra
        have heq : toUpperCase k = toUpperCase n := hcontra
        exact hnd.1 (heq ▸ List.mem_map_of_mem toUpperCase hn)
    rw [ih (index + 1) _ (by omega) hnd.2 hfresh']
    have hdrop : cs.drop index = cs.get ⟨index, by omega⟩ :: cs.drop (index + 1) := by
      rw [List.drop_eq_getElem_cons (by omega)]
      simp
    rw [List.append_assoc]
    congr 1
    rw [hdrop, List.length_cons, List.take_succ_cons]
    simp [List.zip_cons_cons]

theorem createCharEnum_eq (names : List String) (ccs : Option String) :
    createCharEnum names ccs =
      (match buildCharObj (resolvedCharSet ccs).data names 0 [] with
       | .error e => .error e
       | .ok obj =>
         .ok { enumObject := obj
               valueToKeyMap := (objEntries obj).foldl (fun m e => insertAssoc m e.2 e.1) []
               keysList := (objEntries obj).map Prod.fst
               valuesList := (objEntries obj).map Prod.snd }) := rfl

theorem createCharEnum_ok {names : List String} {ccs : Option String} {inst : CharEnumInst}
    (h : createCharEnum names ccs = .ok inst) :
    ∃ obj, buildCharObj (resolvedCharSet ccs).data names 0 [] = .ok obj ∧
      inst.enumObject = obj ∧
      inst.valueToKeyMap = (objEntries obj).foldl (fun m e => insertAssoc m e.2 e.1) [] ∧
      inst.keysList = (objEntries obj).map Prod.fst ∧
      inst.valuesList = (objEntries obj).map Prod.snd := by
  rw [createCharEnum_eq names ccs] at h
  cases hb : buildCharObj (resolvedCharSet ccs).data names 0 [] with
  | error e => rw [hb] at h; exact absurd h (by simp)
  | ok obj =>
    rw [hb] at h
    simp only [Except.ok.injEq] at h
    exact ⟨obj, rfl, by rw [← h], by rw [← h], by rw [← h], by rw [← h]⟩

theorem createByteEnum_ok {names : List String} {inst : ByteEnumInst}
    (h : createByteEnum names = .ok inst) :
    ∃ obj, buildByteObj names 0 [] = .ok obj ∧
      inst.enumObject = obj ∧
      inst.valueToKeyMap = (objEntries obj).foldl (fun m e => insertAssoc m e.2 e.1) [] ∧
      inst.keysList = (objEntries obj).map Prod.fst ∧
      inst.valuesList = (objEntries obj).map Prod.snd := by
  unfold createByteEnum at h
  cases hb : buildByteObj names 0 [] with
  | error e => rw [hb] at h; exact absurd h (by simp)
  | ok obj =>
    rw [hb] at h
    simp only [Except.ok.injEq] at h
    exact ⟨obj, rfl, by rw [← h], by rw [← h], by rw [← h], by rw [← h]⟩

theorem mem_revMap {V : Type} [DecidableEq V] (entries : List (String × V)) :
    ∀ (acc : List (V × String)) (p : V × String),
      p ∈ entries.foldl (fun m e => insertAssoc m e.2 e.1) acc →
      p ∈ acc ∨ (p.2, p.1) ∈ entries := by
  induction entries with
  | nil => exact fun acc p h => Or.inl h
  | cons e es ih =>
    intro acc p h
    simp only [List.foldl_cons] at h
    rcases ih _ p h with h1 | h1
    · rcases mem_insertAssoc h1 with h2 | h2
      · exact Or.inl h2
      · right
        rw [h2]
        exact List.mem_cons_self e es
    · exact Or.inr (List.mem_cons_of_mem e h1)

theorem assocHas_revMap {V : Type} [DecidableEq V] (entries : List (String × V)) :
    ∀ (acc : List (V × String)) (x : V),
      assocHas (entries.foldl (fun m e => insertAssoc m e.2 e.1) acc) x = true ↔
        (assocHas acc x = true ∨ x ∈ entries.map Prod.snd) := by
  induction entries with
  | nil => simp
  | cons e es ih =>
    intro acc x
    simp only [List.foldl_cons, List.map_cons, List.mem_cons]
    rw [ih]
    rw [assocHas_insertAssoc]
    tauto

theorem assocFind_zip {K V : Type} [DecidableEq K] :
    ∀ (A : List K) (B : List V), A.Nodup → A.length = B.length →
      ∀ (i : Nat) (a : K), A.get? i = some a →
        assocFind (A.zip B) a = B.get? i := by
  intro A
  induction A with
  | nil => intro B _ _ i a h; simp at h
  | cons x A ih =>
    intro B hnd hlen i a h
    cases B with
    | nil => simp at hlen
    | cons y B =>
      simp only [List.nodup_cons] at hnd
      cases i with
      | zero =>
        simp only [List.get?] at h
        cases h
        simp [assocFind, List.zip_cons_cons, List.find?]
      | succ i =>
        simp only [List.get?] at h
        have hmem : a ∈ A := List.get?_mem h
        have hne : ¬(x = a) := fun hxa => hnd.1 (hxa ▸ hmem)
        simp only [List.zip_cons_cons, assocFind, List.find?]
        rw [show (decide (x = a)) = false from by simpa using hne]
        have := ih B hnd.2 (by simpa using hlen) i a h
        simpa [assocFind] using this

theorem value_queries_core {V : Type} [DecidableEq V] (obj : List (String × V)) (v : V) :
    (assocHas ((objEntries obj).foldl (fun m e => insertAssoc m e.2 e.1) []) v = true ↔
      v ∈ (objEntries obj).map Prod.snd) ∧
    (v ∈ (objEntries obj).map Prod.snd ↔ v ∈ obj.map Prod.snd) ∧
    (v ∈ (objEntries obj).map Prod.snd →
      ∃ k, assocFind ((objEntries obj).foldl (fun m e => insertAssoc m e.2 e.1) []) v =
          some k ∧ (k, v) ∈ obj) ∧
    (v ∉ (objEntries obj).map Prod.snd →
      assocHas ((objEntries obj).foldl (fun m e => insertAssoc m e.2 e.1) []) v = false ∧
      assocFind ((objEntries obj).foldl (fun m e => insertAssoc m e.2 e.1) []) v = none) := by
  have hperm := objEntries_perm obj
  have h1 : assocHas ((objEntries obj).foldl (fun m e => insertAssoc m e.2 e.1) []) v = true ↔
      v ∈ (objEntries obj).map Prod.snd := by
    rw [assocHas_revMap]
    simp [assocHas]
  have hfind : ∀ e ∈ (objEntries obj).foldl (fun m e => insertAssoc m e.2 e.1) [],
      (e.2, e.1) ∈ objEntries obj := by
    intro e he
    rcases mem_revMap (objEntries obj) [] e he with h2 | h2
    · exact absurd h2 (List.not_mem_nil e)
    · exact h2
  refine ⟨h1, (hperm.map Prod.snd).mem_iff, ?_, ?_⟩
  · intro hv
    obtain ⟨k, hk⟩ := assocFind_isSome (h1.2 hv)
    exact ⟨k, hk, hperm.mem_iff.1 (hfind (v, k) (assocFind_eq_some hk))⟩
  · intro hv
    have hnone : assocFind ((objEntries obj).foldl (fun m e => insertAssoc m e.2 e.1) []) v =
        none := by
      apply assocFind_eq_none
      intro e he hcontra
      exact hv (List.mem_map.2 ⟨(e.2, e.1), hfind e he, hcontra⟩)
    exact ⟨Bool.eq_false_iff.2 (fun ht => hv (h1.1 ht)), hnone⟩

theorem createCharEnum_charSet (names : List String) (cs : String) (h : cs ≠ "") :
    createCharEnum names (some cs) =
      (match buildCharObj cs.data names 0 [] with
       | .error e => .error e
       | .ok obj =>
         .ok { enumObject := obj
               valueToKeyMap := (objEntries obj).foldl (fun m e => insertAssoc m e.2 e.1) []
               keysList := (objEntries obj).map Prod.fst
               valuesList := (objEntries obj).map Prod.snd }) := by
  simp only [createCharEnum]
  rw [if_neg h]

/-- Claim C2: constructing a byte enumeration with exactly 256 names
succeeds; with 257 names it fails with the capacity error (the
`CapacityExceeded` failure of the spec); a char enumeration over a
3-character code-set with 4 names fails with the capacity error whose
message mentions the limit 3.  The `Except` result is either a full
instance or an error, so a failed construction returns no partial
instance. -/
theorem capacity_boundary :
    (∀ names : List String, names.length = 256 →
      ∃ inst, createByteEnum names = .ok inst) ∧
    (∀ names : List String, names.length = 257 →
      createByteEnum names = .error ("Byte enum cannot have more than 256 values")) ∧
    (∀ (names : List String) (cs : String), cs.length = 3 → names.length = 4 →
      createCharEnum names (some cs) =
        .error ("Enum has too many values (max: " ++ toString (3 : Nat) ++ ")")) := by
  refine ⟨?_, ?_, ?_⟩
  · intro names h
    obtain ⟨obj, hobj⟩ := buildByteObj_ok names 0 [] (by omega)
    exact ⟨_, by rw [createByteEnum, hobj]⟩
  · intro names h
    rw [createByteEnum, buildByteObj_err names 0 [] (by omega) (by omega)]
  · intro names cs h3 h4
    have hne : cs ≠ "" := by
      intro hcontra
      rw [hcontra] at h3
      simp [String.length] at h3
    have hdata : cs.data.length = 3 := h3
    rw [createCharEnum_charSet names cs hne,
      buildCharObj_err cs.data names 0 [] (by omega) (by omega), hdata]

/-- Witness for C2 at concrete inputs: 256 replicated names succeed, 257
fail, and a 4-name enumeration over the 3-character code-set "RGB" fails
mentioning the limit 3. -/
theorem capacity_boundary_witness :
    (∃ inst, createByteEnum (List.replicate 256 ("K")) = .ok inst) ∧
    createByteEnum (List.replicate 257 ("K")) =
      .error ("Byte enum cannot have more than 256 values") ∧
    createCharEnum ["W", "X", "Y", "Z"] (some ("RGB")) =
      .error ("Enum has too many values (max: " ++ toString (3 : Nat) ++ ")") :=
  ⟨capacity_boundary.1 _ (by rw [List.length_replicate]),
   capacity_boundary.2.1 _ (by rw [List.length_replicate]),
   capacity_boundary.2.2 _ _ (by decide) (by decide)⟩

/-- Claim C9: an empty-string custom code-set is falsy in the source's
`if (!charSet)` test, so it is treated exactly like an absent code-set:
the default 256-character set is used, and up to 256 names construct
successfully rather than failing with the capacity error at limit 0. -/
theorem createCharEnum_none (names : List String) :
    createCharEnum names none =
      (match buildCharObj defaultCharSet.data names 0 [] with
       | .error e => .error e
       | .ok obj =>
         .ok { enumObject := obj
               valueToKeyMap := (objEntries obj).foldl (fun m e => insertAssoc m e.2 e.1) []
               keysList := (objEntries obj).map Prod.fst
               valuesList := (objEntries obj).map Prod.snd }) := rfl

theorem emptyCharSet_is_default :
    (∀ names : List String, createCharEnum names (some "") = createCharEnum names none) ∧
    (∀ names : List String, names.length ≤ 256 →
      ∃ inst, createCharEnum names (some "") = .ok inst) := by
  have hresolve : ∀ names : List String,
      createCharEnum names (some "") = createCharEnum names none := fun _ => rfl
  refine ⟨hresolve, ?_⟩
  intro names h
  have h256 : defaultCharSet.data.length = 256 := by
    show ((List.range 256).map Char.ofNat).length = 256
    simp
  obtain ⟨obj, hobj⟩ := buildCharObj_ok defaultCharSet.data names 0 [] (by omega)
  rw [hresolve names, createCharEnum_none names, hobj]
  exact ⟨_, rfl⟩

/-- Witness for C9: with one name and the empty code-set, construction
matches the default-code-set construction and succeeds. -/
theorem emptyCharSet_is_default_witness :
    createCharEnum ["GO"] (some "") = createCharEnum ["GO"] none ∧
    ∃ inst, createCharEnum ["GO"] (some "") = .ok inst :=
  ⟨emptyCharSet_is_default.1 ["GO"], emptyCharSet_is_default.2 ["GO"] (by decide)⟩

/-- Claim C8: `isKey` is case-insensitive, because the queried name is
uppercased before the membership test: on any instance of either
constructor family, `isKey s` agrees with `isKey` of the uppercased
string. -/
theorem isKey_case_insensitive :
    (∀ (e : ByteEnumInst) (s : String), e.isKey s = e.isKey (toUpperCase s)) ∧
    (∀ (e : CharEnumInst) (s : String), e.isKey s = e.isKey (toUpperCase s)) := by
  constructor
  · intro e s
    show assocHas _ (toUpperCase s) = assocHas _ (toUpperCase (toUpperCase s))
    rw [toUpperCase_toUpperCase]
  · intro e s
    show assocHas _ (toUpperCase s) = assocHas _ (toUpperCase (toUpperCase s))
    rw [toUpperCase_toUpperCase]

/-- Claim C7: the alphanumeric constructor delegates to the char
constructor with the fixed 62-character code-set, that code-set is the
digits, the lowercase letters and the uppercase letters concatenated in
that order, and the names FIRST, SECOND, THIRD receive codes "0", "1",
"2". -/
theorem alphaNum_delegates :
    (∀ names : List String,
      createAlphaNumEnum names = createCharEnum names (some alphaNumCharSet)) ∧
    alphaNumCharSet = specAlphaNumSet ∧
    createAlphaNumEnum ["FIRST", "SECOND", "THIRD"] =
      .ok { enumObject := [("FIRST", "0"), ("SECOND", "1"), ("THIRD", "2")],
            valueToKeyMap := [("0", "FIRST"), ("1", "SECOND"), ("2", "THIRD")],
            keysList := ["FIRST", "SECOND", "THIRD"],
            valuesList := ["0", "1", "2"] } := by
  refine ⟨fun _ => rfl, by decide, by rfl⟩

/-- Claim C5: for every code bound to a name, `getDisplayName` returns the
spec's formatting rule applied to the bound name (split on underscore,
lowercase each segment, uppercase its first character, join with single
spaces); `NON_BINARY` yields "Non Binary" and `ACTIVE` yields "Active".
The rule holds for both instance families. -/
theorem displayName_rule :
    (∀ (e : ByteEnumInst) (v : Nat) (k : String),
      e.getKeyByValue v = some k → e.getDisplayName v = displaySpec k) ∧
    (∀ (e : CharEnumInst) (v : String) (k : String),
      e.getKeyByValue v = some k → e.getDisplayName v = displaySpec k) ∧
    (∃ inst, createByteEnum ["NON_BINARY", "ACTIVE"] = .ok inst ∧
      inst.getDisplayName 0 = "Non Binary" ∧ inst.getDisplayName 1 = "Active") := by
  refine ⟨?_, ?_, ?_⟩
  · intro e v k h
    unfold ByteEnumInst.getDisplayName
    rw [h]
    exact displayFormat_eq_displaySpec k
  · intro e v k h
    unfold CharEnumInst.getDisplayName
    rw [h]
    exact displayFormat_eq_displaySpec k
  · exact ⟨{ enumObject := [("NON_BINARY", 0), ("ACTIVE", 1)],
             valueToKeyMap := [(0, "NON_BINARY"), (1, "ACTIVE")],
             keysList := ["NON_BINARY", "ACTIVE"],
             valuesList := [0, 1] }, by rfl, by rfl, by rfl⟩

/-- Witness for C5: on the concrete two-name instance, code 0 is bound to
NON_BINARY and its display name is the spec rule applied to that name. -/
theorem displayName_rule_witness :
    ({ enumObject := [("NON_BINARY", 0), ("ACTIVE", 1)],
       valueToKeyMap := [(0, "NON_BINARY"), (1, "ACTIVE")],
       keysList := ["NON_BINARY", "ACTIVE"],
       valuesList := [0, 1] } : ByteEnumInst).getKeyByValue 0 = some ("NON_BINARY") ∧
    ({ enumObject := [("NON_BINARY", 0), ("ACTIVE", 1)],
       valueToKeyMap := [(0, "NON_BINARY"), (1, "ACTIVE")],
       keysList := ["NON_BINARY", "ACTIVE"],
       valuesList := [0, 1] } : ByteEnumInst).getDisplayName 0 =
      displaySpec ("NON_BINARY") :=
  ⟨rfl, displayName_rule.1 _ 0 ("NON_BINARY") rfl⟩

/-- Claim C3: on every constructed instance — from the byte constructor or
the char constructor (the alphanumeric constructor delegates to the char
constructor, so its instances are covered by the second part) — `isValue`
is true exactly for the codes produced at construction (the cached value
list, which holds the same codes as the forward object); every produced
code has `getKeyByValue` returning the normalized name bound to it in the
forward object; every other code has `isValue` false, no `getKeyByValue`
result, and an empty display name. -/
theorem value_queries :
    (∀ (names : List String) (inst : ByteEnumInst), createByteEnum names = .ok inst →
      ∀ v : Nat,
        (inst.isValue v = true ↔ v ∈ inst.valuesList) ∧
        (v ∈ inst.valuesList ↔ v ∈ inst.enumObject.map Prod.snd) ∧
        (v ∈ inst.valuesList →
          ∃ k, inst.getKeyByValue v = some k ∧ (k, v) ∈ inst.enumObject) ∧
        (v ∉ inst.valuesList →
          inst.isValue v = false ∧ inst.getKeyByValue v = none ∧
            inst.getDisplayName v = "")) ∧
    (∀ (names : List String) (customCharSet : Option String) (inst : CharEnumInst),
      createCharEnum names customCharSet = .ok inst →
      ∀ v : String,
        (inst.isValue v = true ↔ v ∈ inst.valuesList) ∧
        (v ∈ inst.valuesList ↔ v ∈ inst.enumObject.map Prod.snd) ∧
        (v ∈ inst.valuesList →
          ∃ k, inst.getKeyByValue v = some k ∧ (k, v) ∈ inst.enumObject) ∧
        (v ∉ inst.valuesList →
          inst.isValue v = false ∧ inst.getKeyByValue v = none ∧
            inst.getDisplayName v = "")) := by
  constructor
  · intro names inst h v
    obtain ⟨obj, hbuild, hobj, hmap, hkeys, hvals⟩ := createByteEnum_ok h
    obtain ⟨hc1, hc2, hc3, hc4⟩ := value_queries_core obj v
    refine ⟨?_, ?_, ?_, ?_⟩
    · show assocHas inst.valueToKeyMap v = true ↔ _
      rw [hmap, hvals]
      exact hc1
    · rw [hvals, hobj]
      exact hc2
    · intro hv
      rw [hvals] at hv
      obtain ⟨k, hfindk, hmemk⟩ := hc3 hv
      refine ⟨k, ?_, ?_⟩
      · show assocFind inst.valueToKeyMap v = some k
        rw [hmap]
        exact hfindk
      · rw [hobj]
        exact hmemk
    · intro hv
      rw [hvals] at hv
      obtain ⟨hhas, hnone⟩ := hc4 hv
      have hnone' : inst.getKeyByValue v = none := by
        show assocFind inst.valueToKeyMap v = none
        rw [hmap]
        exact hnone
      refine ⟨?_, hnone', ?_⟩
      · show assocHas inst.valueToKeyMap v = false
        rw [hmap]
        exact hhas
      · unfold ByteEnumInst.getDisplayName
        rw [hnone']
  · intro names ccs inst h v
    obtain ⟨obj, hbuild, hobj, hmap, hkeys, hvals⟩ := createCharEnum_ok h
    obtain ⟨hc1, hc2, hc3, hc4⟩ := value_queries_core obj v
    refine ⟨?_, ?_, ?_, ?_⟩
    · show assocHas inst.valueToKeyMap v = true ↔ _
      rw [hmap, hvals]
      exact hc1
    · rw [hvals, hobj]
      exact hc2
    · intro hv
      rw [hvals] at hv
      obtain ⟨k, hfindk, hmemk⟩ := hc3 hv
      refine ⟨k, ?_, ?_⟩
      · show assocFind inst.valueToKeyMap v = some k
        rw [hmap]
        exact hfindk
      · rw [hobj]
        exact hmemk
    · intro hv
      rw [hvals] at hv
      obtain ⟨hhas, hnone⟩ := hc4 hv
      have hnone' : inst.getKeyByValue v = none := by
        show assocFind inst.valueToKeyMap v = none
        rw [hmap]
        exact hnone
      refine ⟨?_, hnone', ?_⟩
      · show assocHas inst.valueToKeyMap v = false
        rw [hmap]
        exact hhas
      · unfold CharEnumInst.getDisplayName
        rw [hnone']

/-- Witness for C3: both parts applied at concrete one-name instances —
the byte instance from ["ONE"] at code 0, and the char instance from
["ONE"] over the code-set "Z" at code "Z". -/
theorem value_queries_witness :
    ((byteInstONE.isValue 0 = true ↔ 0 ∈ byteInstONE.valuesList) ∧
      (0 ∈ byteInstONE.valuesList ↔ 0 ∈ byteInstONE.enumObject.map Prod.snd) ∧
      (0 ∈ byteInstONE.valuesList →
        ∃ k, byteInstONE.getKeyByValue 0 = some k ∧ (k, 0) ∈ byteInstONE.enumObject) ∧
      (0 ∉ byteInstONE.valuesList →
        byteInstONE.isValue 0 = false ∧ byteInstONE.getKeyByValue 0 = none ∧
          byteInstONE.getDisplayName 0 = "")) ∧
    ((charInstONE.isValue "Z" = true ↔ "Z" ∈ charInstONE.valuesList) ∧
      ("Z" ∈ charInstONE.valuesList ↔ "Z" ∈ charInstONE.enumObject.map Prod.snd) ∧
      ("Z" ∈ charInstONE.valuesList →
        ∃ k, charInstONE.getKeyByValue "Z" = some k ∧ (k, "Z") ∈ charInstONE.enumObject) ∧
      ("Z" ∉ charInstONE.valuesList →
        charInstONE.isValue "Z" = false ∧ charInstONE.getKeyByValue "Z" = none ∧
          charInstONE.getDisplayName "Z" = "")) :=
  ⟨value_queries.1 ["ONE"] byteInstONE rfl 0,
   value_queries.2 ["ONE"] (some "Z") charInstONE rfl "Z"⟩

/-- Claim C10: when two input names collide after uppercase normalization,
the surviving forward-mapping entry keeps the key's original position but
is bound to the later name's positional index; the earlier index is absent
from the finished instance (`isValue` is false on it and it is missing
from the value list), so the instance's codes are not the contiguous range
0..n-1 of its own size. -/
theorem collision_last_write_wins (a b : String) (h : toUpperCase a = toUpperCase b) :
    ∃ inst, createByteEnum [a, b] = .ok inst ∧
      inst.enumObject = [(toUpperCase b, 1)] ∧
      inst.keysList = [toUpperCase b] ∧
      inst.valuesList = [1] ∧
      inst.isValue 0 = false ∧
      (0 : Nat) ∉ inst.valuesList ∧
      inst.valuesList ≠ List.range inst.keysList.length := by
  have hb1 : buildByteObj [a, b] 0 [] = .ok [(toUpperCase b, 1)] := by
    rw [buildByteObj, if_neg (by omega)]
    rw [insertAssoc_of_forall_ne [] _ 0 (by intro e he; exact absurd he (List.not_mem_nil e))]
    rw [List.nil_append, buildByteObj, if_neg (by omega)]
    have hins : insertAssoc [(toUpperCase a, 0)] (toUpperCase b) 1 = [(toUpperCase b, 1)] := by
      unfold insertAssoc
      rw [if_pos (by simp [h])]
      simp [h]
    rw [hins, buildByteObj]
  refine ⟨{ enumObject := [(toUpperCase b, 1)],
            valueToKeyMap := [(1, toUpperCase b)],
            keysList := [toUpperCase b],
            valuesList := [1] }, ?_, rfl, rfl, rfl, ?_, ?_, ?_⟩
  · simp only [createByteEnum]
    rw [hb1]
    simp only [objEntries_singleton]
    rfl
  · show assocHas [(1, toUpperCase b)] 0 = false
    simp [assocHas]
  · simp
  · show [1] ≠ List.range ([toUpperCase b].length)
    exact (by decide : ¬([1] = List.range 1))

/-- Witness for C10: the names "a" and "A" collide after normalization;
the surviving entry is ("A", 1), index 0 is gone, and the value list [1]
is not the range [0]. -/
theorem collision_last_write_wins_witness :
    ∃ inst, createByteEnum ["a", "A"] = .ok inst ∧
      inst.enumObject = [(toUpperCase "A", 1)] ∧
      inst.keysList = [toUpperCase "A"] ∧
      inst.valuesList = [1] ∧
      inst.isValue 0 = false ∧
      (0 : Nat) ∉ inst.valuesList ∧
      inst.valuesList ≠ List.range inst.keysList.length :=
  collision_last_write_wins "a" "A" (by rfl)

/-- Claim C6: a code-set with duplicate characters is accepted silently:
with the two-character code-set consisting of the same character twice,
two distinct names both receive that character as their code (the code-set
is used positionally), construction succeeds, and the reverse lookup for
the shared code retains only the last name assigned to it. -/
theorem duplicate_charset_aliases (a b : String) (c : Char)
    (hne : toUpperCase a ≠ toUpperCase b)
    (ha : isArrayIndex (toUpperCase a) = false)
    (hb : isArrayIndex (toUpperCase b) = false) :
    ∃ inst, createCharEnum [a, b] (some (String.mk [c, c])) = .ok inst ∧
      inst.enumObject =
        [(toUpperCase a, String.mk [c]), (toUpperCase b, String.mk [c])] ∧
      inst.valuesList = [String.mk [c], String.mk [c]] ∧
      assocFind inst.enumObject (toUpperCase a) = some (String.mk [c]) ∧
      assocFind inst.enumObject (toUpperCase b) = some (String.mk [c]) ∧
      inst.getKeyByValue (String.mk [c]) = some (toUpperCase b) := by
  have hcs : String.mk [c, c] ≠ "" := by
    intro hcon
    have hdata := congrArg String.data hcon
    simp at hdata
  have hbuild : buildCharObj (String.mk [c, c]).data [a, b] 0 [] =
      .ok [(toUpperCase a, String.mk [c]), (toUpperCase b, String.mk [c])] := by
    show buildCharObj [c, c] [a, b] 0 [] = _
    rw [buildCharObj, dif_neg (by simp)]
    rw [insertAssoc_of_forall_ne [] _ _ (fun e he => absurd he (List.not_mem_nil e))]
    rw [List.nil_append, buildCharObj, dif_neg (by simp)]
    rw [insertAssoc_of_forall_ne _ _ _
      (fun e he => by rw [List.mem_singleton.1 he]; exact hne)]
    rw [buildCharObj]
    rfl
  have hentries : objEntries
      [(toUpperCase a, String.mk [c]), (toUpperCase b, String.mk [c])] =
      [(toUpperCase a, String.mk [c]), (toUpperCase b, String.mk [c])] := by
    apply objEntries_eq_self
    intro e he
    rcases List.mem_cons.1 he with h1 | h1
    · rw [h1]; exact ha
    · rw [List.mem_singleton.1 h1]; exact hb
  have hins2 : insertAssoc [(String.mk [c], toUpperCase a)] (String.mk [c])
      (toUpperCase b) = [(String.mk [c], toUpperCase b)] := by
    unfold insertAssoc
    rw [if_pos (by simp)]
    simp
  refine ⟨{ enumObject := [(toUpperCase a, String.mk [c]), (toUpperCase b, String.mk [c])],
            valueToKeyMap := [(String.mk [c], toUpperCase b)],
            keysList := [toUpperCase a, toUpperCase b],
            valuesList := [String.mk [c], String.mk [c]] }, ?_, rfl, rfl, ?_, ?_, ?_⟩
  · rw [createCharEnum_charSet _ _ hcs, hbuild]
    simp only [hentries]
    simp only [List.foldl_cons, List.foldl_nil]
    rw [insertAssoc_of_forall_ne [] _ _ (fun e he => absurd he (List.not_mem_nil e)),
      List.nil_append, hins2]
    rfl
  · simp [assocFind, List.find?]
  · simp only [assocFind, List.find?]
    rw [show (decide (toUpperCase a = toUpperCase b)) = false from by simpa using hne]
    simp
  · show assocFind [(String.mk [c], toUpperCase b)] (String.mk [c]) = some (toUpperCase b)
    simp [assocFind, List.find?]

/-- Witness for C6: names RED and BLUE with the duplicate code-set "XX"
both receive code "X", and the reverse lookup of "X" yields BLUE. -/
theorem duplicate_charset_aliases_witness :
    ∃ inst, createCharEnum ["RED", "BLUE"] (some (String.mk ['X', 'X'])) = .ok inst ∧
      inst.enumObject =
        [(toUpperCase "RED", String.mk ['X']), (toUpperCase "BLUE", String.mk ['X'])] ∧
      inst.valuesList = [String.mk ['X'], String.mk ['X']] ∧
      assocFind inst.enumObject (toUpperCase "RED") = some (String.mk ['X']) ∧
      assocFind inst.enumObject (toUpperCase "BLUE") = some (String.mk ['X']) ∧
      inst.getKeyByValue (String.mk ['X']) = some (toUpperCase "BLUE") :=
  duplicate_charset_aliases "RED" "BLUE" 'X' (by decide) (by decide) (by decide)

/-- Counterexample to claim C1 as stated: the two-name list ["a", "A"] has
length at most the capacity, but after uppercase normalization both names
collide, so `keys()` holds one entry instead of the uppercase-normalized
names in input order. -/
theorem keys_not_input_order_cex :
    createByteEnum ["a", "A"] =
      .ok { enumObject := [("A", 1)], valueToKeyMap := [(1, "A")],
            keysList := ["A"], valuesList := [1] } ∧
    ({ enumObject := [("A", 1)], valueToKeyMap := [(1, "A")],
       keysList := ["A"], valuesList := [1] } : ByteEnumInst).keysList ≠
      ["a", "A"].map toUpperCase := by
  exact ⟨rfl, by decide⟩

/-- Claim C1 (amended): for every name list whose length is at most the
capacity (256 for the byte constructor; the resolved code-set length for
the char constructor), whose uppercase-normalized names are pairwise
distinct and are not array-index strings (digit strings, which
`Object.entries` would move to the front), `keys()` is the normalized
names in input order, `values()` is the assigned codes in the same order
(0..n-1 for the byte constructor; the first n code-set characters for the
char constructor), and the forward object binds the i-th key to the i-th
value. -/
theorem keys_values_aligned :
    (∀ names : List String, names.length ≤ 256 →
      (names.map toUpperCase).Nodup →
      (∀ n ∈ names, isArrayIndex (toUpperCase n) = false) →
      ∃ inst, createByteEnum names = .ok inst ∧
        inst.keysList = names.map toUpperCase ∧
        inst.valuesList = List.range names.length ∧
        ∀ (i : Nat) (k : String), inst.keysList.get? i = some k →
          assocFind inst.enumObject k = inst.valuesList.get? i) ∧
    (∀ (names : List String) (ccs : Option String),
      names.length ≤ (resolvedCharSet ccs).length →
      (names.map toUpperCase).Nodup →
      (∀ n ∈ names, isArrayIndex (toUpperCase n) = false) →
      ∃ inst, createCharEnum names ccs = .ok inst ∧
        inst.keysList = names.map toUpperCase ∧
        inst.valuesList =
          ((resolvedCharSet ccs).data.take names.length).map (fun c => String.mk [c]) ∧
        ∀ (i : Nat) (k : String), inst.keysList.get? i = some k →
          assocFind inst.enumObject k = inst.valuesList.get? i) := by
  constructor
  · intro names hlen hnd hidx
    have hbuild := buildByteObj_nodup names 0 [] (by omega) hnd
      (fun n _ e he => absurd he (List.not_mem_nil e))
    simp only [List.nil_append] at hbuild
    rw [← List.range_eq_range'] at hbuild
    have hlenA : (names.map toUpperCase).length = names.length :=
      List.length_map names toUpperCase
    have hlenR : (List.range names.length).length = names.length := by simp
    have hkeysnoidx : ∀ e ∈ (names.map toUpperCase).zip (List.range names.length),
        isArrayIndex e.1 = false := by
      intro e he
      obtain ⟨he1, _⟩ := List.of_mem_zip he
      obtain ⟨n, hn, hne⟩ := List.mem_map.1 he1
      rw [← hne]
      exact hidx n hn
    have hentries := objEntries_eq_self _ hkeysnoidx
    have hfst := List.map_fst_zip (names.map toUpperCase) (List.range names.length)
      (by omega)
    have hsnd := List.map_snd_zip (names.map toUpperCase) (List.range names.length)
      (by omega)
    have hmain : createByteEnum names =
        .ok { enumObject := (names.map toUpperCase).zip (List.range names.length)
              valueToKeyMap := ((names.map toUpperCase).zip
                (List.range names.length)).foldl (fun m e => insertAssoc m e.2 e.1) []
              keysList := names.map toUpperCase
              valuesList := List.range names.length } := by
      simp only [createByteEnum, hbuild, hentries, hfst, hsnd]
    refine ⟨_, hmain, rfl, rfl, ?_⟩
    intro i k hk
    show assocFind ((names.map toUpperCase).zip (List.range names.length)) k =
      (List.range names.length).get? i
    exact assocFind_zip (names.map toUpperCase) (List.range names.length) hnd
      (by omega) i k hk
  · intro names ccs hlen hnd hidx
    have hdata : (resolvedCharSet ccs).data.length = (resolvedCharSet ccs).length := rfl
    have hbuild := buildCharObj_nodup (resolvedCharSet ccs).data names 0 []
      (by omega) hnd (fun n _ e he => absurd he (List.not_mem_nil e))
    simp only [List.nil_append, List.drop_zero] at hbuild
    have hlenA : (names.map toUpperCase).length = names.length :=
      List.length_map names toUpperCase
    have hlenV : (((resolvedCharSet ccs).data.take names.length).map
        (fun c => String.mk [c])).length = names.length := by
      rw [List.length_map, List.length_take]
      omega
    have hkeysnoidx : ∀ e ∈ (names.map toUpperCase).zip
        (((resolvedCharSet ccs).data.take names.length).map (fun c => String.mk [c])),
        isArrayIndex e.1 = false := by
      intro e he
      obtain ⟨he1, _⟩ := List.of_mem_zip he
      obtain ⟨n, hn, hne⟩ := List.mem_map.1 he1
      rw [← hne]
      exact hidx n hn
    have hentries := objEntries_eq_self _ hkeysnoidx
    have hfst := List.map_fst_zip (names.map toUpperCase)
      (((resolvedCharSet ccs).data.take names.length).map (fun c => String.mk [c]))
      (by omega)
    have hsnd := List.map_snd_zip (names.map toUpperCase)
      (((resolvedCharSet ccs).data.take names.length).map (fun c => String.mk [c]))
      (by omega)
    have hmain : createCharEnum names ccs =
        .ok { enumObject := (names.map toUpperCase).zip
                (((resolvedCharSet ccs).data.take names.length).map
                  (fun c => String.mk [c]))
              valueToKeyMap := ((names.map toUpperCase).zip
                (((resolvedCharSet ccs).data.take names.length).map
                  (fun c => String.mk [c]))).foldl (fun m e => insertAssoc m e.2 e.1) []
              keysList := names.map toUpperCase
              valuesList := ((resolvedCharSet ccs).data.take names.length).map
                (fun c => String.mk [c]) } := by
      rw [createCharEnum_eq names ccs]
      simp only [hbuild, hentries, hfst, hsnd]
    refine ⟨_, hmain, rfl, rfl, ?_⟩
    intro i k hk
    show assocFind ((names.map toUpperCase).zip
        (((resolvedCharSet ccs).data.take names.length).map (fun c => String.mk [c]))) k =
      (((resolvedCharSet ccs).data.take names.length).map (fun c => String.mk [c])).get? i
    exact assocFind_zip (names.map toUpperCase)
      (((resolvedCharSet ccs).data.take names.length).map (fun c => String.mk [c])) hnd
      (by omega) i k hk

/-- Witness for the amended C1: the byte part on ["ONE", "TWO"] and the
char part on ["RED", "GREEN", "BLUE"] with the code-set "RGB". -/
theorem keys_values_aligned_witness :
    (∃ inst, createByteEnum ["ONE", "TWO"] = .ok inst ∧
      inst.keysList = ["ONE", "TWO"].map toUpperCase ∧
      inst.valuesList = List.range (["ONE", "TWO"] : List String).length ∧
      ∀ (i : Nat) (k : String), inst.keysList.get? i = some k →
        assocFind inst.enumObject k = inst.valuesList.get? i) ∧
    (∃ inst, createCharEnum ["RED", "GREEN", "BLUE"] (some "RGB") = .ok inst ∧
      inst.keysList = ["RED", "GREEN", "BLUE"].map toUpperCase ∧
      inst.valuesList = ((resolvedCharSet (some "RGB")).data.take
        (["RED", "GREEN", "BLUE"] : List String).length).map (fun c => String.mk [c]) ∧
      ∀ (i : Nat) (k : String), inst.keysList.get? i = some k →
        assocFind inst.enumObject k = inst.valuesList.get? i) :=
  ⟨keys_values_aligned.1 ["ONE", "TWO"] (by decide) (by decide) (by decide),
   keys_values_aligned.2 ["RED", "GREEN", "BLUE"] (some "RGB") (by decide) (by decide)
     (by decide)⟩

theorem dedup_replicate_length_le {K : Type} [DecidableEq K] (a : K) :
    ∀ n : Nat, ((List.replicate n a).dedup).length ≤ 1 := by
  intro n
  induction n with
  | zero => simp
  | succ m ih =>
    cases m with
    | zero => simp
    | succ m' =>
      rw [List.replicate_succ, List.dedup_cons_of_mem (by simp [List.mem_replicate])]
      exact ih

/-- Counterexample to claim C4 as stated: 257 copies of the name "A" have
only one distinct uppercase-normalized name, yet the byte constructor
fails with the capacity error, because the source checks the raw input
index, not the count of distinct normalized names. -/
theorem byte_capacity_distinct_cex :
    createByteEnum (List.replicate 257 ("A")) =
      .error ("Byte enum cannot have more than 256 values") ∧
    ((List.replicate 257 ("A")).map toUpperCase).dedup.length ≤ 256 := by
  constructor
  · simp only [createByteEnum]
    rw [buildByteObj_err _ 0 [] (by omega) (by rw [List.length_replicate]; omega)]
  · rw [List.map_replicate]
    exact le_trans (dedup_replicate_length_le _ 257) (by omega)

/-- Claim C4 (amended): the byte constructor succeeds for every name list
whose raw length is at most 256 (the check is on input positions, not on
distinct normalized names), and when the uppercase-normalized names are
pairwise distinct the forward object binds the i-th normalized name to the
code i, i.e. the codes are 0..n-1 assigned in input order. -/
theorem byte_capacity_raw_length (names : List String) (hlen : names.length ≤ 256) :
    ∃ inst, createByteEnum names = .ok inst ∧
      ((names.map toUpperCase).Nodup →
        inst.enumObject = (names.map toUpperCase).zip (List.range names.length)) := by
  by_cases hnd : (names.map toUpperCase).Nodup
  · have hbuild := buildByteObj_nodup names 0 [] (by omega) hnd
      (fun n _ e he => absurd he (List.not_mem_nil e))
    simp only [List.nil_append] at hbuild
    rw [← List.range_eq_range'] at hbuild
    refine ⟨{ enumObject := (names.map toUpperCase).zip (List.range names.length)
              valueToKeyMap := (objEntries ((names.map toUpperCase).zip
                (List.range names.length))).foldl (fun m e => insertAssoc m e.2 e.1) []
              keysList := (objEntries ((names.map toUpperCase).zip
                (List.range names.length))).map Prod.fst
              valuesList := (objEntries ((names.map toUpperCase).zip
                (List.range names.length))).map Prod.snd }, ?_, fun _ => rfl⟩
    simp only [createByteEnum, hbuild]
  · obtain ⟨obj, hobj⟩ := buildByteObj_ok names 0 [] (by omega)
    refine ⟨{ enumObject := obj
              valueToKeyMap := (objEntries obj).foldl (fun m e => insertAssoc m e.2 e.1) []
              keysList := (objEntries obj).map Prod.fst
              valuesList := (objEntries obj).map Prod.snd },
        ?_, fun hcontra => absurd hcontra hnd⟩
    simp only [createByteEnum, hobj]

/-- Witness for the amended C4 on the list ["UP", "DOWN"]. -/
theorem byte_capacity_raw_length_witness :
    ∃ inst, createByteEnum ["UP", "DOWN"] = .ok inst ∧
      (((["UP", "DOWN"] : List String).map toUpperCase).Nodup →
        inst.enumObject = ((["UP", "DOWN"] : List String).map toUpperCase).zip
          (List.range (["UP", "DOWN"] : List String).length)) :=
  byte_capacity_raw_length ["UP", "DOWN"] (by decide)
